import Mathlib

/-!
Verification of the SwisspowerDynPreis normalization-and-statistics engine.

Shallow embedding of `custom_components/swisspower_dynpreis/pricing.py` and
`custom_components/swisspower_dynpreis/coordinator.py`.

Modelling conventions:
* Time instants are integers (`ℤ`), counting seconds; `timedelta(seconds=1)`
  is `1`, `timedelta(days=1)` is `86400`. The engine's slot arithmetic works
  at one-second granularity throughout (the spec's one-second end-of-slot
  convention), so sub-second fractions are not modelled; the millisecond-epoch
  branch of `_coerce_datetime` truncates to whole seconds.
* Prices are rationals (`ℚ`, Python floats modelled exactly).
* `homeassistant.util.dt.parse_datetime` is an external collaborator; it is
  modelled as a total function that returns the encoded instant for a
  parseable ISO-8601 string and `none` for anything else.
* Python operations that can raise inside `pricing.py` (list indexing) are
  modelled in `Except String`; everything else is pure.
-/

namespace Swisspower

/-- A value found under a timestamp-ish key of a raw slot mapping.
`isoStr t` stands for an ISO-8601 string that parses to the instant `t`;
`badStr` is an unparseable string; `dt` a `datetime` object; `num` a numeric
epoch; `other` any other (non time-like) value. -/
inductive RawVal where
  | dt (t : ℤ)
  | num (q : ℤ)
  | isoStr (t : ℤ)
  | badStr
  | other
deriving DecidableEq, Repr

/-- `coordinator._coerce_datetime`: a `datetime` passes through, a number is an
epoch (milliseconds when above 1e12, divided by 1000), a string goes through
`dt_util.parse_datetime`, anything else gives `None`. -/
def coerceDatetime : Option RawVal → Option ℤ
  | some (.dt t) => some t
  | some (.num q) => some (if q > 1000000000000 then q / 1000 else q)
  | some (.isoStr t) => some t
  | some .badStr => none
  | some .other => none
  | none => none

/-- `dt_util.parse_datetime` applied to the stored field value (total model of
the external collaborator: only a parseable ISO string yields an instant). -/
def parseTS : Option RawVal → Option ℤ
  | some (.isoStr t) => some t
  | _ => none

/-- `pricing.PriceSlot` (frozen dataclass): the typed slot. `end_` models the
field called `end` in the source (a Lean keyword). -/
structure PriceSlot where
  start : ℤ
  end_ : ℤ
  value : ℚ
deriving DecidableEq, Repr

/-- An itemized price record (`{value, unit, component}` mapping) inside a
slot's per-tariff list. Values are numeric-or-absent. -/
structure PriceRec where
  value : Option ℚ
  unit : Option String
  component : Option String
deriving DecidableEq, Repr

/-- An entry of the list under the tariff-type key: either not a dict
(skipped by the loop) or a price record. -/
inductive PriceEntry where
  | nonDict
  | dict (r : PriceRec)
deriving DecidableEq, Repr

/-- A value stored under a non-reserved key of a slot mapping, as inspected by
`extract_slot_value`: a list of price entries, or something that is not a
list. -/
inductive FieldVal where
  | plist (l : List PriceEntry)
  | nonList
deriving DecidableEq, Repr

/-- A canonical slot mapping as consumed by `pricing.py`: the two canonical
timestamp keys, the flat `value`, the remaining keys (each tariff-type key
maps to its stored value), and the top-level `unit` / `component` fields. -/
structure PSlot where
  start_timestamp : Option RawVal
  end_timestamp : Option RawVal
  value : Option ℚ
  fields : List (String × FieldVal)
  unit : Option String
  component : Option String
deriving DecidableEq, Repr

/-- The `for price in prices` loop of `extract_slot_value`: skip non-dicts,
skip records failing the component filter, return the first remaining record
with a non-null value (the CHF/kWh branch and the fallback branch both return
the current record's value, so the unit test decides nothing across records). -/
def extractFromList (component : Option String) : List PriceEntry → Option ℚ
  | [] => none
  | .nonDict :: rest => extractFromList component rest
  | .dict r :: rest =>
    if component.isSome ∧ r.component ≠ component then extractFromList component rest
    else if r.unit = some "CHF/kWh" ∧ r.value.isSome then r.value
    else if r.value.isSome then r.value
    else extractFromList component rest

/-- `pricing.extract_slot_value`. -/
def extract_slot_value (slot : PSlot) (tariff_type : String) (component : Option String) :
    Option ℚ :=
  if component = none ∧ slot.value.isSome then slot.value
  else
    let fromList :=
      match slot.fields.lookup tariff_type with
      | some (.plist l) => extractFromList component l
      | _ => none
    match fromList with
    | some v => some v
    | none =>
      if slot.unit = some "CHF/kWh" then
        if component = none ∧ (slot.component = none ∨ slot.component = some "work") then
          slot.value
        else if component.isSome ∧ slot.component = component then slot.value
        else none
      else none

/-- `pricing.find_current_slot`: first slot whose parsed `[start, end]`
interval (both ends inclusive) contains `now`; slots with a missing or
unparseable timestamp are skipped. -/
def find_current_slot (slots : List PSlot) (now : ℤ) : Option PSlot :=
  slots.find? fun slot =>
    match parseTS slot.start_timestamp, parseTS slot.end_timestamp with
    | some s, some e => decide (s ≤ now) && decide (now ≤ e)
    | _, _ => false

/-- `pricing.normalize_price_slots`: parse both canonical timestamps, extract
the value, drop the slot when any of the three is missing, sort ascending by
start. -/
def normalize_price_slots (slots : List PSlot) (tariff_type : String)
    (component : Option String) : List PriceSlot :=
  let normalized := slots.filterMap fun slot =>
    match parseTS slot.start_timestamp, parseTS slot.end_timestamp with
    | some s, some e =>
      match extract_slot_value slot tariff_type component with
      | some v => some (PriceSlot.mk s e v)
      | none => none
    | _, _ => none
  normalized.insertionSort fun a b => a.start ≤ b.start

/-- `pricing.day_bounds`: start of the local day of the ambient clock instant
`now`, shifted by `offset_days`, and that start plus one day. The ambient
clock read (`dt_util.now()`) is made explicit as the `now` argument. -/
def day_bounds (now : ℤ) (offset_days : ℤ) : ℤ × ℤ :=
  let start : ℤ := 86400 * (now.fdiv 86400) + 86400 * offset_days
  (start, start + 86400)

/-- Loop body of `pricing.average_price_for_window`, accumulating
`(weighted_sum, total_seconds)`. -/
def avgStep (start end_exclusive : ℤ) (acc : ℚ × ℚ) (slot : PriceSlot) : ℚ × ℚ :=
  let slot_start := max slot.start start
  let slot_end_excl := min (slot.end_ + 1) end_exclusive
  if slot_start ≥ slot_end_excl then acc
  else
    let seconds : ℚ := ((slot_end_excl - slot_start : ℤ) : ℚ)
    (acc.1 + slot.value * seconds, acc.2 + seconds)

/-- `pricing.average_price_for_window`. -/
def average_price_for_window (slots : List PriceSlot) (start end_exclusive : ℤ) : Option ℚ :=
  let acc := slots.foldl (avgStep start end_exclusive) (0, 0)
  if acc.2 = 0 then none else some (acc.1 / acc.2)

/-- The contiguity test of `window_extreme`: every adjacent pair of the
candidate window satisfies `prev.end + 1s == next.start`. -/
def windowContiguous (window : List PriceSlot) : Bool :=
  window.Chain' (fun p n => p.end_ + 1 = n.start)

/-- The candidate slice `day_slots[index : index + window_hours]`. -/
def windowAt (day_slots : List PriceSlot) (window_hours index : ℕ) : List PriceSlot :=
  (day_slots.drop index).take window_hours

/-- Loop body of `pricing.window_extreme` for one candidate index: slice the
candidate, skip it when short or non-contiguous, otherwise compare its
unweighted mean against the running best exactly as the two sequential `if`
statements of the source do. -/
def weStep (day_slots : List PriceSlot) (window_hours : ℕ) (extreme : String)
    (best : Option (ℚ × ℤ × ℤ)) (index : ℕ) : Option (ℚ × ℤ × ℤ) :=
  let window := windowAt day_slots window_hours index
  if window.length < window_hours then best
  else if ¬ windowContiguous window then best
  else
    match window.head?, window.getLast? with
    | some w0, some wl =>
      let avg := (window.map PriceSlot.value).sum / (window_hours : ℚ)
      let cand := (avg, w0.start, wl.end_)
      match best with
      | none => some cand
      | some b =>
        let best1 := if extreme = "min" ∧ avg < b.1 then cand else b
        let best2 := if extreme = "max" ∧ best1.1 < avg then cand else best1
        some best2
    | _, _ => best

/-- `pricing.window_extreme`. `window_hours` is a natural number; the
source's `window_hours <= 0` guard is the `= 0` test. The candidate index
range `range(len(day_slots) - window_hours + 1)` is `List.range` of the
truncated subtraction `length + 1 - window_hours`, which is empty exactly
when Python's range is. -/
def window_extreme (slots : List PriceSlot) (start end_exclusive : ℤ)
    (window_hours : ℕ) (extreme : String) : Option (ℚ × ℤ × ℤ) :=
  if window_hours = 0 then none
  else
    let day_slots := slots.filter fun s => decide (start ≤ s.start) && decide (s.start < end_exclusive)
    if day_slots.isEmpty then none
    else (List.range (day_slots.length + 1 - window_hours)).foldl
      (weStep day_slots window_hours extreme) none

/-- Python 3 `round` (banker's rounding, halves to even), on exact rationals. -/
def pyRound (q : ℚ) : ℤ :=
  let f := ⌊q⌋
  let r := q - f
  if r < 1/2 then f
  else if 1/2 < r then f + 1
  else if f % 2 = 0 then f else f + 1

/-- Python list indexing `l[i]` (negative indices count from the end;
out-of-range raises `IndexError`). -/
def pyIndex {α : Type} (l : List α) (i : ℤ) : Except String α :=
  let j := if i < 0 then i + l.length else i
  if h : 0 ≤ j ∧ j < (l.length : ℤ) then .ok (l.get ⟨j.toNat, by omega⟩)
  else .error "IndexError"

/-- `pricing.percentile_threshold`, in `Except` because the final indexing
can raise in Python. -/
def percentile_threshold (values : List ℚ) (percentile : ℚ) (highest : Bool) :
    Except String (Option ℚ) :=
  if values = [] then .ok none
  else if percentile ≤ 0 then .ok none
  else
    let count : ℤ := max 1 (pyRound (values.length * percentile))
    let values_sorted := values.insertionSort (· ≤ ·)
    if highest then (pyIndex values_sorted (-count)).map some
    else (pyIndex values_sorted (count - 1)).map some

/-- A raw slot mapping as consumed by `coordinator._normalize_slots`: one
optional value per timestamp alias key, plus the `value` key used when a
non-dict raw slot is wrapped. `end_`, `start_time_`, `end_time_`, `from_`,
`to_` model the keys `end`, `start_time`, `end_time`, `from`, `to`. -/
structure RawSlot where
  start_timestamp : Option RawVal := none
  start : Option RawVal := none
  start_time_ : Option RawVal := none
  from_ : Option RawVal := none
  timestamp : Option RawVal := none
  time : Option RawVal := none
  end_timestamp : Option RawVal := none
  end_ : Option RawVal := none
  end_time_ : Option RawVal := none
  to_ : Option RawVal := none
  valid_until : Option RawVal := none
  finish : Option RawVal := none
  value : Option RawVal := none
deriving DecidableEq, Repr

/-- An element of the raw slot list: a dict, or any other value (which the
normalizer wraps as `{"value": slot}`). -/
inductive RawItem where
  | dict (s : RawSlot)
  | nonDict (v : RawVal)
deriving DecidableEq, Repr

/-- The `dict(slot)` / `{"value": slot}` preparation step of
`_normalize_slots`. -/
def toDict : RawItem → RawSlot
  | .dict s => s
  | .nonDict v => { value := some v }

/-- `coordinator._first_value`: the first non-`None` value among the listed
fields, probed in priority order. -/
def firstValue (fields : List (Option RawVal)) : Option RawVal :=
  fields.findSome? id

/-- Phase-1 start resolution of `_normalize_slots`: probe the start alias
keys in priority order, then coerce. -/
def resolveStart (s : RawSlot) : Option ℤ :=
  coerceDatetime (firstValue
    [s.start_timestamp, s.start, s.start_time_, s.from_, s.timestamp, s.time])

/-- End resolution from the slot's own fields: probe the end alias keys in
priority order, then coerce. -/
def resolveEndField (s : RawSlot) : Option ℤ :=
  coerceDatetime (firstValue
    [s.end_timestamp, s.end_, s.end_time_, s.to_, s.valid_until, s.finish])

/-- Phase-2 body of `_normalize_slots` for the slot at position `index`:
resolve the end from the slot's own fields; if absent while the start is
resolved, infer it as the first non-null resolved start of a subsequent slot
minus one second, falling back to `window_end`; finally write the resolved
instants back under the canonical keys as local ISO-8601 strings. -/
def finishSlot (starts : List (Option ℤ)) (window_end : ℤ) (index : ℕ) (s : RawSlot) :
    RawSlot :=
  let start := (starts.getD index none)
  let end0 := resolveEndField s
  let endv : Option ℤ :=
    match end0, start with
    | none, some _ =>
      match (starts.drop (index + 1)).findSome? id with
      | some next_start => some (next_start - 1)
      | none => some window_end
    | _, _ => end0
  let s1 :=
    match start with
    | some t => { s with start_timestamp := some (RawVal.isoStr t) }
    | none => s
  match endv with
  | some t => { s1 with end_timestamp := some (RawVal.isoStr t) }
  | none => s1

/-- The `prepared` list of `_normalize_slots`: every raw item as a dict. -/
def preparedOf (slots : List RawItem) : List RawSlot :=
  slots.map toDict

/-- The `starts` list of `_normalize_slots`: phase-1 resolved start of every
prepared slot, in input order. -/
def startsOf (slots : List RawItem) : List (Option ℤ) :=
  (preparedOf slots).map resolveStart

/-- `coordinator._normalize_slots`: wrap non-dict slots, resolve all starts
first, then resolve/infer each end and write both resolved timestamps back. -/
def normalizeSlots (slots : List RawItem) (window_end : ℤ) : List RawSlot :=
  (List.range (preparedOf slots).length).map fun index =>
    finishSlot (startsOf slots) window_end index ((preparedOf slots).getD index {})

/-! ## Helper lemmas -/

theorem findSome?_id_eq_none_iff {α : Type} (l : List (Option α)) :
    l.findSome? id = none ↔ ∀ y ∈ l, y = none := by
  induction l with
  | nil => simp
  | cons x xs ih =>
    cases x with
    | none => simp [List.findSome?, ih]
    | some a => simp [List.findSome?]

theorem findSome?_id_eq_some_iff {α : Type} (l : List (Option α)) (x : α) :
    l.findSome? id = some x ↔
      ∃ l1 l2, l = l1 ++ some x :: l2 ∧ ∀ y ∈ l1, y = none := by
  induction l with
  | nil => simp
  | cons h t ih =>
    cases h with
    | none =>
      simp only [List.findSome?, id, ih]
      constructor
      · rintro ⟨l1, l2, rfl, hnone⟩
        exact ⟨none :: l1, l2, rfl, by simpa using hnone⟩
      · rintro ⟨l1, l2, heq, hnone⟩
        cases l1 with
        | nil => simp at heq
        | cons y l1 =>
          simp only [List.cons_append, List.cons.injEq] at heq
          exact ⟨l1, l2, heq.2, fun z hz => hnone z (by simp [heq.1.symm, hz])⟩
    | some a =>
      simp only [List.findSome?, id]
      constructor
      · intro hax
        exact ⟨[], t, by simp [← Option.some_inj.mp hax], by simp⟩
      · rintro ⟨l1, l2, heq, hnone⟩
        cases l1 with
        | nil => simp_all
        | cons y l1 =>
          simp only [List.cons_append, List.cons.injEq] at heq
          have hya := hnone y (by simp)
          exact absurd (heq.1.trans hya) (by simp)

theorem preparedOf_length (slots : List RawItem) :
    (preparedOf slots).length = slots.length := by
  simp [preparedOf]

theorem normalizeSlots_length (slots : List RawItem) (we : ℤ) :
    (normalizeSlots slots we).length = slots.length := by
  simp [normalizeSlots, preparedOf]

theorem normalizeSlots_getD (slots : List RawItem) (we : ℤ) (i : ℕ)
    (hi : i < slots.length) :
    (normalizeSlots slots we).getD i {} =
      finishSlot (startsOf slots) we i ((preparedOf slots).getD i {}) := by
  have hi' : i < (preparedOf slots).length := by simpa [preparedOf] using hi
  simp [normalizeSlots, List.getD, List.getElem?_map, List.getElem?_range, hi']

theorem startsOf_getD (slots : List RawItem) (i : ℕ) (hi : i < slots.length) :
    (startsOf slots).getD i none = resolveStart ((preparedOf slots).getD i {}) := by
  have hi' : i < (preparedOf slots).length := by simpa [preparedOf] using hi
  simp [startsOf, List.getD, List.getElem?_map, List.getElem?_eq_getElem hi']

/-- `parseTS` succeeds exactly on stored parseable ISO strings. -/
theorem parseTS_eq_some_iff (v : Option RawVal) (t : ℤ) :
    parseTS v = some t ↔ v = some (RawVal.isoStr t) := by
  cases v with
  | none => simp [parseTS]
  | some w => cases w <;> simp [parseTS]

/-- Unfolding of `finishSlot` when the end is absent and the start resolved:
the end is inferred from the first subsequent resolved start, or from
`window_end`. -/
theorem finishSlot_inferred (starts : List (Option ℤ)) (we : ℤ) (i : ℕ) (s : RawSlot) (t : ℤ)
    (hstart : starts.getD i none = some t) (hend : resolveEndField s = none) :
    finishSlot starts we i s =
      { s with start_timestamp := some (RawVal.isoStr t),
               end_timestamp := some (RawVal.isoStr
                 (match (starts.drop (i + 1)).findSome? id with
                  | some ns => ns - 1
                  | none => we)) } := by
  rcases hcase : (starts.drop (i + 1)).findSome? id with _ | ns <;>
    simp only [finishSlot, hstart, hend, hcase]

/-- Unfolding of `finishSlot` when both the start and the end resolve from the
slot's own fields: both are written back unmodified. -/
theorem finishSlot_resolved (starts : List (Option ℤ)) (we : ℤ) (i : ℕ) (s : RawSlot) (t u : ℤ)
    (hstart : starts.getD i none = some t) (hend : resolveEndField s = some u) :
    finishSlot starts we i s =
      { s with start_timestamp := some (RawVal.isoStr t),
               end_timestamp := some (RawVal.isoStr u) } := by
  simp only [finishSlot, hstart, hend]

/-! ## C1 -/

/-- C1 (amended): a canonical slot whose end was *inferred* by
`_normalize_slots` (its own end fields unresolvable, start resolved) satisfies
`start_timestamp <= end_timestamp`, provided the first subsequent resolved
start is at least one second after this slot's start (next-start path), or —
when no subsequent resolved start exists — `windowEnd` is not before the
start (fallback path). An end resolved from the slot's own fields is written
back without any comparison against the start, so the unconditional invariant
of the original claim does not hold (see the counterexample). The combined
hypothesis `t + 1 ≤ (firstSubsequentStart).getD (windowEnd + 1)` states
exactly "next resolved start ≥ start + 1s, or no next start and
windowEnd ≥ start". -/
theorem c1_inferred_end_not_before_start (slots : List RawItem) (we : ℤ) (i : ℕ) (t : ℤ)
    (hi : i < slots.length)
    (hstart : resolveStart ((preparedOf slots).getD i {}) = some t)
    (hend : resolveEndField ((preparedOf slots).getD i {}) = none)
    (hsafe : t + 1 ≤ ((((startsOf slots).drop (i + 1)).findSome? id).getD (we + 1))) :
    ∃ e, ((normalizeSlots slots we).getD i {}).start_timestamp = some (RawVal.isoStr t) ∧
      ((normalizeSlots slots we).getD i {}).end_timestamp = some (RawVal.isoStr e) ∧
      t ≤ e := by
  have hst : (startsOf slots).getD i none = some t := by
    rw [startsOf_getD slots i hi, hstart]
  rw [normalizeSlots_getD slots we i hi,
    finishSlot_inferred (startsOf slots) we i _ t hst hend]
  rcases hcase : ((startsOf slots).drop (i + 1)).findSome? id with _ | ns <;>
    rw [hcase] at hsafe
  · exact ⟨we, rfl, rfl, by simp at hsafe; omega⟩
  · exact ⟨ns - 1, rfl, rfl, by simp at hsafe; omega⟩

/-- C1 counterexample: a raw slot carrying an explicit end *before* its start
is normalized to a canonical slot with both timestamps resolved and
`start_timestamp > end_timestamp`, refuting the unconditional invariant. -/
theorem c1_counterexample :
    parseTS ((normalizeSlots
        [RawItem.dict { start_timestamp := some (RawVal.isoStr 100),
                        end_timestamp := some (RawVal.isoStr 50) }] 1000).getD 0 {}).start_timestamp
      = some 100 ∧
    parseTS ((normalizeSlots
        [RawItem.dict { start_timestamp := some (RawVal.isoStr 100),
                        end_timestamp := some (RawVal.isoStr 50) }] 1000).getD 0 {}).end_timestamp
      = some 50 ∧
    ¬ ((100 : ℤ) ≤ 50) := by
  decide

/-- C1 witness: the amended theorem applied to a concrete two-slot input whose
first slot's end is inferred from the second slot's start. -/
theorem c1_witness :
    (0 : ℕ) < ([RawItem.dict { start := some (RawVal.isoStr 0) },
        RawItem.dict { start_timestamp := some (RawVal.isoStr 3600) }] : List RawItem).length ∧
    ∃ e, ((normalizeSlots
        [RawItem.dict { start := some (RawVal.isoStr 0) },
         RawItem.dict { start_timestamp := some (RawVal.isoStr 3600) }] 999).getD 0 {}).start_timestamp
        = some (RawVal.isoStr 0) ∧
      ((normalizeSlots
        [RawItem.dict { start := some (RawVal.isoStr 0) },
         RawItem.dict { start_timestamp := some (RawVal.isoStr 3600) }] 999).getD 0 {}).end_timestamp
        = some (RawVal.isoStr e) ∧
      (0 : ℤ) ≤ e :=
  ⟨by decide,
    c1_inferred_end_not_before_start
      [RawItem.dict { start := some (RawVal.isoStr 0) },
       RawItem.dict { start_timestamp := some (RawVal.isoStr 3600) }] 999 0 0
      (by decide) (by decide) (by decide) (by decide)⟩

/-! ## C6 -/

/-- C6: when a raw slot's end is absent but its start resolved,
`_normalize_slots` sets its end to the first non-null phase-1-resolved start
among the subsequent slots (in original input order) minus one second; when
no subsequent slot has a resolved start, to the `windowEnd` fallback. The
"first non-null" is expressed by the `l1 ++ some ns :: l2` decomposition with
every element of `l1` null. -/
theorem c6_end_inference (slots : List RawItem) (we : ℤ) (i : ℕ) (t : ℤ)
    (hi : i < slots.length)
    (hstart : resolveStart ((preparedOf slots).getD i {}) = some t)
    (hend : resolveEndField ((preparedOf slots).getD i {}) = none) :
    (∃ l1 ns l2, (startsOf slots).drop (i + 1) = l1 ++ some ns :: l2 ∧
        (∀ y ∈ l1, y = none) ∧
        ((normalizeSlots slots we).getD i {}).end_timestamp = some (RawVal.isoStr (ns - 1)))
    ∨ ((∀ y ∈ (startsOf slots).drop (i + 1), y = none) ∧
        ((normalizeSlots slots we).getD i {}).end_timestamp = some (RawVal.isoStr we)) := by
  have hst : (startsOf slots).getD i none = some t := by
    rw [startsOf_getD slots i hi, hstart]
  rw [normalizeSlots_getD slots we i hi,
    finishSlot_inferred (startsOf slots) we i _ t hst hend]
  rcases hcase : ((startsOf slots).drop (i + 1)).findSome? id with _ | ns
  · exact Or.inr ⟨(findSome?_id_eq_none_iff _).mp hcase, rfl⟩
  · obtain ⟨l1, l2, hdec, hnone⟩ := (findSome?_id_eq_some_iff _ _).mp hcase
    exact Or.inl ⟨l1, ns, l2, hdec, hnone, rfl⟩

/-- C6 witness: the theorem applied at a three-slot input whose first slot's
end is inferred from the third slot's start (the second has no resolvable
start), demonstrating the forward scan for the first non-null resolved
start. -/
theorem c6_witness :
    (0 : ℕ) < ([RawItem.dict { start := some (RawVal.isoStr 10) },
        RawItem.dict { value := some (RawVal.num 3) },
        RawItem.dict { start := some (RawVal.isoStr 7200) }] : List RawItem).length ∧
    ((∃ l1 ns l2,
        (startsOf [RawItem.dict { start := some (RawVal.isoStr 10) },
          RawItem.dict { value := some (RawVal.num 3) },
          RawItem.dict { start := some (RawVal.isoStr 7200) }]).drop (0 + 1)
          = l1 ++ some ns :: l2 ∧
        (∀ y ∈ l1, y = none) ∧
        ((normalizeSlots [RawItem.dict { start := some (RawVal.isoStr 10) },
            RawItem.dict { value := some (RawVal.num 3) },
            RawItem.dict { start := some (RawVal.isoStr 7200) }] 555).getD 0 {}).end_timestamp
          = some (RawVal.isoStr (ns - 1)))
      ∨ ((∀ y ∈ (startsOf [RawItem.dict { start := some (RawVal.isoStr 10) },
            RawItem.dict { value := some (RawVal.num 3) },
            RawItem.dict { start := some (RawVal.isoStr 7200) }]).drop (0 + 1), y = none) ∧
          ((normalizeSlots [RawItem.dict { start := some (RawVal.isoStr 10) },
              RawItem.dict { value := some (RawVal.num 3) },
              RawItem.dict { start := some (RawVal.isoStr 7200) }] 555).getD 0 {}).end_timestamp
            = some (RawVal.isoStr 555))) :=
  ⟨by decide,
    c6_end_inference
      [RawItem.dict { start := some (RawVal.isoStr 10) },
       RawItem.dict { value := some (RawVal.num 3) },
       RawItem.dict { start := some (RawVal.isoStr 7200) }] 555 0 10
      (by decide) (by decide) (by decide)⟩

/-! ## C8 -/

theorem preparedOf_map_dict (slots : List RawSlot) :
    preparedOf (slots.map RawItem.dict) = slots := by
  simp [preparedOf, List.map_map]
  exact List.map_id slots

theorem resolveStart_of_isoStr (s : RawSlot) (t : ℤ)
    (h : s.start_timestamp = some (RawVal.isoStr t)) : resolveStart s = some t := by
  simp [resolveStart, firstValue, h, List.findSome?, coerceDatetime]

theorem resolveEndField_of_isoStr (s : RawSlot) (u : ℤ)
    (h : s.end_timestamp = some (RawVal.isoStr u)) : resolveEndField s = some u := by
  simp [resolveEndField, firstValue, h, List.findSome?, coerceDatetime]

/-- C8: normalization is idempotent on already-canonical slot lists: when
every slot carries parseable `start_timestamp` and `end_timestamp` strings
(as produced by a prior normalization run), a second `_normalize_slots` run
leaves both fields of every slot unchanged. -/
theorem c8_normalize_idempotent (slots : List RawSlot) (we : ℤ)
    (hcanon : ∀ s ∈ slots,
      (parseTS s.start_timestamp).isSome ∧ (parseTS s.end_timestamp).isSome)
    (i : ℕ) (hi : i < slots.length) :
    ((normalizeSlots (slots.map RawItem.dict) we).getD i {}).start_timestamp
        = (slots.getD i {}).start_timestamp ∧
    ((normalizeSlots (slots.map RawItem.dict) we).getD i {}).end_timestamp
        = (slots.getD i {}).end_timestamp := by
  have hi' : i < (slots.map RawItem.dict).length := by simpa using hi
  have hgd : (preparedOf (slots.map RawItem.dict)).getD i {} = slots.getD i {} := by
    rw [preparedOf_map_dict]
  have hmem : slots.getD i {} ∈ slots := by
    have : slots.getD i {} = slots[i] := by
      simp [List.getD, List.getElem?_eq_getElem hi]
    rw [this]
    exact List.getElem_mem hi
  obtain ⟨hs, he⟩ := hcanon _ hmem
  obtain ⟨t, ht⟩ := Option.isSome_iff_exists.mp hs
  obtain ⟨u, hu⟩ := Option.isSome_iff_exists.mp he
  have htf : (slots.getD i {}).start_timestamp = some (RawVal.isoStr t) :=
    (parseTS_eq_some_iff _ _).mp ht
  have huf : (slots.getD i {}).end_timestamp = some (RawVal.isoStr u) :=
    (parseTS_eq_some_iff _ _).mp hu
  have hrs : resolveStart (slots.getD i {}) = some t := resolveStart_of_isoStr _ t htf
  have hre : resolveEndField (slots.getD i {}) = some u := resolveEndField_of_isoStr _ u huf
  have hst : (startsOf (slots.map RawItem.dict)).getD i none = some t := by
    rw [startsOf_getD _ i hi', hgd, hrs]
  rw [normalizeSlots_getD _ we i hi', hgd,
    finishSlot_resolved _ we i _ t u hst hre]
  exact ⟨htf.symm, huf.symm⟩

/-- A concrete already-canonical two-slot list, used by the C8 witness. -/
def canonTwo : List RawSlot :=
  [{ start_timestamp := some (RawVal.isoStr 0),
     end_timestamp := some (RawVal.isoStr 3599) },
   { start_timestamp := some (RawVal.isoStr 3600),
     end_timestamp := some (RawVal.isoStr 7199) }]

/-- C8 witness: a second normalization of a concrete already-canonical
two-slot list preserves both canonical timestamp fields of slot 1. -/
theorem c8_witness :
    (∀ s ∈ canonTwo,
      (parseTS s.start_timestamp).isSome ∧ (parseTS s.end_timestamp).isSome) ∧
    ((normalizeSlots (canonTwo.map RawItem.dict) 1).getD 1 {}).start_timestamp
      = (canonTwo.getD 1 {}).start_timestamp ∧
    ((normalizeSlots (canonTwo.map RawItem.dict) 1).getD 1 {}).end_timestamp
      = (canonTwo.getD 1 {}).end_timestamp :=
  ⟨by decide,
    c8_normalize_idempotent canonTwo 1 (by decide) 1 (by decide)⟩

/-! ## C9 -/

/-- C9 (amended): the pure statistics functions are deterministic by
construction (they are functions of their explicit arguments only), but
`day_bounds` additionally reads the ambient local clock (`dt_util.now()`),
modelled here as the explicit `now` argument: it is deterministic given its
`offset_days` argument *and* the current local calendar day — any two
invocations whose clock reads fall on the same local day yield identical
results, while invocations on different days differ (see the
counterexample). -/
theorem c9_day_bounds_deterministic_per_day (offset_days : ℤ) (now1 now2 : ℤ)
    (hday : now1.fdiv 86400 = now2.fdiv 86400) :
    day_bounds now1 offset_days = day_bounds now2 offset_days := by
  simp [day_bounds, hday]

/-- C9 counterexample: `day_bounds` invoked twice with the same (only)
argument `offset_days = 0` but under ambient clock reads one day apart
returns different windows, refuting "equal arguments imply equal results"
for `day_bounds`. -/
theorem c9_counterexample : day_bounds 0 0 ≠ day_bounds 86400 0 := by
  decide

/-- C9 witness: two clock reads within the same local day give identical
day bounds. -/
theorem c9_witness :
    (100 : ℤ).fdiv 86400 = (83000 : ℤ).fdiv 86400 ∧
    day_bounds 100 5 = day_bounds 83000 5 :=
  ⟨by decide, c9_day_bounds_deterministic_per_day 5 100 83000 (by decide)⟩

/-! ## C2 -/

/-- Eligibility with a non-null value, as tested inside the
`extract_slot_value` loop: a dict record passing the component filter whose
`value` is non-null. -/
def eligibleNonNull (component : Option String) : PriceEntry → Bool
  | .nonDict => false
  | .dict r => (decide (component = none) || decide (r.component = component)) && r.value.isSome

/-- The `value` field of a price entry (`none` for non-dicts). -/
def entryValue : PriceEntry → Option ℚ
  | .nonDict => none
  | .dict r => r.value

/-- Whether a price entry is a dict with the canonical unit. -/
def entryUnitCHF : PriceEntry → Bool
  | .nonDict => false
  | .dict r => r.unit = some "CHF/kWh"

theorem extractFromList_eq_first (component : Option String) (l : List PriceEntry)
    (hex : ∃ e ∈ l, eligibleNonNull component e) :
    ∃ l1 e l2, l = l1 ++ e :: l2 ∧ eligibleNonNull component e ∧
      (∀ e' ∈ l1, ¬ eligibleNonNull component e') ∧
      extractFromList component l = entryValue e := by
  induction l with
  | nil => simp at hex
  | cons h t ih =>
    by_cases hel : eligibleNonNull component h
    · cases h with
      | nonDict => simp [eligibleNonNull] at hel
      | dict r =>
        have hcomp : ¬ (component.isSome ∧ r.component ≠ component) := by
          simp only [eligibleNonNull, Bool.and_eq_true, Bool.or_eq_true,
            decide_eq_true_eq] at hel
          rcases hel.1 with h1 | h1
          · simp [h1]
          · simp [h1]
        have hval : r.value.isSome := by
          simp only [eligibleNonNull, Bool.and_eq_true] at hel
          exact hel.2
        refine ⟨[], .dict r, t, by simp, hel, by simp, ?_⟩
        by_cases hunit : r.unit = some "CHF/kWh" ∧ r.value.isSome
        · simp [extractFromList, hcomp, hunit, entryValue]
        · simp [extractFromList, hcomp, hunit, hval, entryValue]
    · have hex' : ∃ e ∈ t, eligibleNonNull component e := by
        rcases hex with ⟨e, he, helig⟩
        rcases List.mem_cons.mp he with rfl | he'
        · exact absurd helig hel
        · exact ⟨e, he', helig⟩
      obtain ⟨l1, e, l2, hdec, helig, hfirst, hval⟩ := ih hex'
      refine ⟨h :: l1, e, l2, by simp [hdec], helig, ?_, ?_⟩
      · intro e' he'
        rcases List.mem_cons.mp he' with rfl | he''
        · exact hel
        · exact hfirst e' he''
      · rw [← hval]
        cases h with
        | nonDict => simp [extractFromList]
        | dict r =>
          have hcomp : component.isSome ∧ r.component ≠ component ∨ ¬ r.value.isSome := by
            simp only [eligibleNonNull, Bool.and_eq_true, Bool.or_eq_true,
              decide_eq_true_eq] at hel
            by_cases hc : component = none
            · right
              intro hv
              exact hel ⟨Or.inl hc, hv⟩
            · by_cases hc2 : r.component = component
              · right
                intro hv
                exact hel ⟨Or.inr hc2, hv⟩
              · exact Or.inl ⟨Option.ne_none_iff_isSome.mp hc, hc2⟩
          rcases hcomp with hc | hc
          · simp [extractFromList, hc]
          · by_cases hskip : component.isSome ∧ r.component ≠ component
            · simp [extractFromList, hskip]
            · simp [extractFromList, hskip, hc]

/-- C2 (amended): whenever the direct-scalar shortcut does not apply and the
list stored under the tariff-type key contains at least one eligible record
with a non-null value, `extract_slot_value` returns the value of the *first*
such record in list order. The per-record CHF/kWh unit test never prefers a
later canonical-unit record over an earlier eligible record with a non-null
value, contrary to the original claim (see the counterexample). -/
theorem c2_first_eligible_wins (slot : PSlot) (tariff_type : String)
    (component : Option String) (l : List PriceEntry)
    (hnoshort : ¬ (component = none ∧ slot.value.isSome))
    (hlist : slot.fields.lookup tariff_type = some (.plist l))
    (hex : ∃ e ∈ l, eligibleNonNull component e) :
    ∃ l1 e l2, l = l1 ++ e :: l2 ∧ eligibleNonNull component e ∧
      (∀ e' ∈ l1, ¬ eligibleNonNull component e') ∧
      extract_slot_value slot tariff_type component = entryValue e := by
  obtain ⟨l1, e, l2, hdec, helig, hfirst, hval⟩ := extractFromList_eq_first component l hex
  refine ⟨l1, e, l2, hdec, helig, hfirst, ?_⟩
  have hsome : (entryValue e).isSome := by
    cases e with
    | nonDict => simp [eligibleNonNull] at helig
    | dict r =>
      simp only [eligibleNonNull, Bool.and_eq_true] at helig
      simpa [entryValue] using helig.2
  obtain ⟨v, hv⟩ := Option.isSome_iff_exists.mp hsome
  simp [extract_slot_value, hnoshort, hlist, hval, hv]

/-- The concrete slot of the C2 counterexample: no flat value; under the
tariff key, a first eligible record with non-canonical unit and value `5`
followed by a canonical-unit (CHF/kWh) record with value `7`. -/
def c2Slot : PSlot :=
  { start_timestamp := none, end_timestamp := none, value := none,
    fields := [("electricity", FieldVal.plist
      [PriceEntry.dict { value := some 5, unit := some "EUR/MWh", component := none },
       PriceEntry.dict { value := some 7, unit := some "CHF/kWh", component := none }])],
    unit := none, component := none }

/-- C2 counterexample: the list under the tariff key contains exactly one
eligible CHF/kWh record with a non-null value (value `7`), yet
`extract_slot_value` returns `5`, the value of the earlier non-canonical
record — refuting "prefer a CHF/kWh record whenever one exists anywhere in
the list". -/
theorem c2_counterexample :
    extract_slot_value c2Slot "electricity" none = some 5 ∧
    ([PriceEntry.dict { value := some 5, unit := some "EUR/MWh", component := none },
      PriceEntry.dict { value := some 7, unit := some "CHF/kWh", component := none }].filter
        (fun e => eligibleNonNull none e && entryUnitCHF e))
      = [PriceEntry.dict { value := some 7, unit := some "CHF/kWh", component := none }] ∧
    c2Slot.fields.lookup "electricity" = some (FieldVal.plist
      [PriceEntry.dict { value := some 5, unit := some "EUR/MWh", component := none },
       PriceEntry.dict { value := some 7, unit := some "CHF/kWh", component := none }]) ∧
    (5 : ℚ) ≠ 7 := by
  refine ⟨by decide, by decide, by decide, by decide⟩

/-- C2 witness: the amended theorem applied to the concrete slot above. -/
theorem c2_witness :
    (¬ ((none : Option String) = none ∧ c2Slot.value.isSome)) ∧
    ∃ l1 e l2,
      ([PriceEntry.dict { value := some 5, unit := some "EUR/MWh", component := none },
        PriceEntry.dict { value := some 7, unit := some "CHF/kWh", component := none }]
        : List PriceEntry) = l1 ++ e :: l2 ∧
      eligibleNonNull none e ∧ (∀ e' ∈ l1, ¬ eligibleNonNull none e') ∧
      extract_slot_value c2Slot "electricity" none = entryValue e :=
  ⟨by decide,
    c2_first_eligible_wins c2Slot "electricity" none
      [PriceEntry.dict { value := some 5, unit := some "EUR/MWh", component := none },
       PriceEntry.dict { value := some 7, unit := some "CHF/kWh", component := none }]
      (by decide) (by decide) (by decide)⟩

/-! ## C5 -/

/-- Non-overlap of two typed slots: their closed-closed second-granularity
intervals `[start, end]` (equivalently half-open `[start, end+1s)`) are
disjoint. -/
def slotDisjoint (a b : PriceSlot) : Prop :=
  a.end_ + 1 ≤ b.start ∨ b.end_ + 1 ≤ a.start

instance : DecidableRel slotDisjoint := fun a b => by
  unfold slotDisjoint
  infer_instance

theorem slotDisjoint_symm {a b : PriceSlot} (h : slotDisjoint a b) : slotDisjoint b a :=
  h.symm

/-- A slot disjoint from the slot containing the whole query window
contributes nothing to the accumulating fold. -/
theorem avgStep_skip (start end_exclusive : ℤ) (x s : PriceSlot) (acc : ℚ × ℚ)
    (hd : slotDisjoint x s) (hs1 : s.start ≤ start) (hs2 : end_exclusive ≤ s.end_ + 1) :
    avgStep start end_exclusive acc x = acc := by
  have hcl : max x.start start ≥ min (x.end_ + 1) end_exclusive := by
    rcases hd with h | h
    · calc min (x.end_ + 1) end_exclusive ≤ x.end_ + 1 := min_le_left _ _
        _ ≤ s.start := h
        _ ≤ start := hs1
        _ ≤ max x.start start := le_max_right _ _
    · calc min (x.end_ + 1) end_exclusive ≤ end_exclusive := min_le_right _ _
        _ ≤ s.end_ + 1 := hs2
        _ ≤ x.start := h
        _ ≤ max x.start start := le_max_left _ _
  simp only [avgStep, ge_iff_le, if_pos hcl]

theorem foldl_avgStep_const (start end_exclusive : ℤ) (l : List PriceSlot) (acc : ℚ × ℚ)
    (h : ∀ x ∈ l, ∀ a : ℚ × ℚ, avgStep start end_exclusive a x = a) :
    l.foldl (avgStep start end_exclusive) acc = acc := by
  induction l generalizing acc with
  | nil => rfl
  | cons x xs ih =>
    rw [List.foldl_cons, h x (by simp) acc]
    exact ih acc fun y hy => h y (by simp [hy])

/-- C5: over a non-overlapping typed slot list, the weighted average across a
query window `[start, endExclusive)` that lies entirely inside one slot's
`[start, end+1s)` interval is exactly that slot's value, independent of the
window's length. -/
theorem c5_average_inside_single_slot (slots : List PriceSlot) (s : PriceSlot)
    (start end_exclusive : ℤ) (hmem : s ∈ slots) (hdisj : slots.Pairwise slotDisjoint)
    (hlt : start < end_exclusive) (hs1 : s.start ≤ start)
    (hs2 : end_exclusive ≤ s.end_ + 1) :
    average_price_for_window slots start end_exclusive = some s.value := by
  obtain ⟨l1, l2, rfl⟩ := List.append_of_mem hmem
  rw [List.pairwise_append] at hdisj
  obtain ⟨-, hp2, hcross⟩ := hdisj
  have hl2 : ∀ y ∈ l2, slotDisjoint s y := (List.pairwise_cons.mp hp2).1
  have hskip1 : ∀ x ∈ l1, ∀ a : ℚ × ℚ, avgStep start end_exclusive a x = a :=
    fun x hx a => avgStep_skip start end_exclusive x s a
      (hcross x hx s (List.mem_cons_self _ _)) hs1 hs2
  have hskip2 : ∀ x ∈ l2, ∀ a : ℚ × ℚ, avgStep start end_exclusive a x = a :=
    fun x hx a => avgStep_skip start end_exclusive x s a
      (slotDisjoint_symm (hl2 x hx)) hs1 hs2
  have hD : (0 : ℚ) < ((end_exclusive - start : ℤ) : ℚ) := by
    exact_mod_cast Int.sub_pos.mpr hlt
  have hsstep : avgStep start end_exclusive (0, 0) s
      = (s.value * ((end_exclusive - start : ℤ) : ℚ), ((end_exclusive - start : ℤ) : ℚ)) := by
    have hmax : max s.start start = start := max_eq_right hs1
    have hmin : min (s.end_ + 1) end_exclusive = end_exclusive := min_eq_right hs2
    have hneg : ¬ (max s.start start ≥ min (s.end_ + 1) end_exclusive) := by
      rw [hmax, hmin]
      omega
    simp only [avgStep, ge_iff_le, hmax, hmin, zero_add]
    rw [if_neg (by omega : ¬ end_exclusive ≤ start)]
  calc average_price_for_window (l1 ++ s :: l2) start end_exclusive
      = (fun acc : ℚ × ℚ => if acc.2 = 0 then none else some (acc.1 / acc.2))
          (((l1 ++ s :: l2).foldl (avgStep start end_exclusive) (0, 0))) := rfl
    _ = some s.value := by
        rw [List.foldl_append, foldl_avgStep_const _ _ l1 (0, 0) hskip1,
          List.foldl_cons, hsstep, foldl_avgStep_const _ _ l2 _ hskip2]
        simp only [if_neg (ne_of_gt hD)]
        rw [mul_div_cancel_right₀ s.value (ne_of_gt hD)]

/-- C5 witness: a one-slot list and a strictly shorter query window inside
it; the weighted average equals the slot's value. -/
theorem c5_witness :
    (PriceSlot.mk 0 3599 5 ∈ [PriceSlot.mk 0 3599 5]) ∧
    (600 : ℤ) < 1200 ∧
    average_price_for_window [PriceSlot.mk 0 3599 5] 600 1200 = some (5 : ℚ) :=
  ⟨by decide, by decide,
    c5_average_inside_single_slot [PriceSlot.mk 0 3599 5] (PriceSlot.mk 0 3599 5) 600 1200
      (by decide) (by decide) (by decide) (by decide) (by decide)⟩

/-! ## C4 -/

/-- The validity test of a candidate window of `window_extreme` following the
spec's words: the candidate slice has full length and every adjacent pair is
strictly contiguous (`prev.end + 1s == next.start`). -/
def validCandidate (day_slots : List PriceSlot) (window_hours : ℕ) (index : ℕ) : Bool :=
  let window := windowAt day_slots window_hours index
  decide (window_hours ≤ window.length) && windowContiguous window

/-- The extremum-tracking step applied *only* to valid candidates (no guard:
the candidate is assumed valid), following the spec's words. -/
def weStepValid (day_slots : List PriceSlot) (window_hours : ℕ) (extreme : String)
    (best : Option (ℚ × ℤ × ℤ)) (index : ℕ) : Option (ℚ × ℤ × ℤ) :=
  let window := windowAt day_slots window_hours index
  match window.head?, window.getLast? with
  | some w0, some wl =>
    let avg := (window.map PriceSlot.value).sum / (window_hours : ℚ)
    let cand := (avg, w0.start, wl.end_)
    match best with
    | none => some cand
    | some b =>
      let best1 := if extreme = "min" ∧ avg < b.1 then cand else b
      let best2 := if extreme = "max" ∧ best1.1 < avg then cand else best1
      some best2
  | _, _ => best

/-- `window_extreme` as the spec describes it: fold the extremum step over
*only* the valid (full-length, strictly contiguous) candidate windows; gap
candidates are excluded from the search entirely. -/
def window_extremeSpec (slots : List PriceSlot) (start end_exclusive : ℤ)
    (window_hours : ℕ) (extreme : String) : Option (ℚ × ℤ × ℤ) :=
  if window_hours = 0 then none
  else
    let day_slots := slots.filter fun s => decide (start ≤ s.start) && decide (s.start < end_exclusive)
    if day_slots.isEmpty then none
    else ((List.range (day_slots.length + 1 - window_hours)).filter
        (validCandidate day_slots window_hours)).foldl
      (weStepValid day_slots window_hours extreme) none

theorem foldl_filter {α β : Type} (p : α → Bool) (f : β → α → β) (l : List α) (b : β) :
    (l.filter p).foldl f b = l.foldl (fun acc a => if p a then f acc a else acc) b := by
  induction l generalizing b with
  | nil => rfl
  | cons x xs ih =>
    by_cases hx : p x <;> simp [List.filter_cons, hx, ih]

theorem weStep_eq_valid (day_slots : List PriceSlot) (window_hours : ℕ) (extreme : String)
    (best : Option (ℚ × ℤ × ℤ)) (index : ℕ) :
    weStep day_slots window_hours extreme best index =
      if validCandidate day_slots window_hours index then
        weStepValid day_slots window_hours extreme best index
      else best := by
  simp only [weStep, weStepValid, validCandidate]
  generalize windowAt day_slots window_hours index = w
  by_cases h1 : w.length < window_hours
  · have hv : ¬ window_hours ≤ w.length := by omega
    simp [h1, hv]
  · by_cases h2 : windowContiguous w
    · simp [h1, h2, Nat.not_lt.mp h1]
    · simp [h1, h2, Nat.not_lt.mp h1]

/-- C4: `window_extreme` equals the spec-side search that folds the extremum
comparison over only the valid candidate windows: any candidate containing an
adjacent pair with `prev.end + 1s ≠ next.start` (in particular a single
one-second gap) is filtered out of the search entirely — it is neither
returned nor compared, exactly as the claim states. -/
theorem c4_gap_candidates_excluded (slots : List PriceSlot) (start end_exclusive : ℤ)
    (window_hours : ℕ) (extreme : String) :
    window_extreme slots start end_exclusive window_hours extreme =
      window_extremeSpec slots start end_exclusive window_hours extreme := by
  unfold window_extreme window_extremeSpec
  by_cases h0 : window_hours = 0
  · simp [h0]
  · simp only [if_neg h0]
    set day_slots := slots.filter
      fun s => decide (start ≤ s.start) && decide (s.start < end_exclusive) with hday
    by_cases hemp : day_slots.isEmpty
    · simp [hemp]
    · simp only [hemp, Bool.false_eq_true, if_neg, if_false]
      rw [foldl_filter]
      exact List.foldl_ext _ _ none fun b i _ => weStep_eq_valid day_slots window_hours extreme b i

/-! ## Percentile helpers (C3, C7, C10) -/

theorem pyRound_le (q : ℚ) (m : ℤ) (h : q ≤ (m : ℚ)) : pyRound q ≤ m := by
  have hfm : ⌊q⌋ ≤ m := by
    have h2 := Int.floor_le_floor h
    rwa [Int.floor_intCast] at h2
  unfold pyRound
  by_cases h1 : q - ⌊q⌋ < 1/2
  · simp only [if_pos h1]
    exact hfm
  · have hge : (1 : ℚ)/2 ≤ q - ⌊q⌋ := not_lt.mp h1
    have hstrict : ⌊q⌋ < m := by
      rcases lt_or_eq_of_le hfm with hlt | heq
      · exact hlt
      · exfalso
        rw [← heq] at h
        have hfl : (⌊q⌋ : ℚ) ≤ q := Int.floor_le q
        linarith
    simp only [if_neg h1]
    by_cases h2 : (1 : ℚ)/2 < q - ⌊q⌋
    · simp only [if_pos h2]
      omega
    · simp only [if_neg h2]
      by_cases h3 : ⌊q⌋ % 2 = 0
      · simp only [if_pos h3]
        omega
      · simp only [if_neg h3]
        omega

theorem count_le_length (values : List ℚ) (p : ℚ) (hne : values ≠ []) (hp1 : p ≤ 1) :
    max 1 (pyRound (values.length * p)) ≤ values.length := by
  have hlen : 1 ≤ values.length := List.length_pos.mpr hne
  have h1 : (values.length : ℚ) * p ≤ ((values.length : ℤ) : ℚ) := by
    push_cast
    calc (values.length : ℚ) * p ≤ (values.length : ℚ) * 1 :=
          mul_le_mul_of_nonneg_left hp1 (by positivity)
      _ = (values.length : ℚ) := mul_one _
  have h2 : pyRound (values.length * p) ≤ (values.length : ℤ) := pyRound_le _ _ h1
  omega

theorem pyIndex_neg (l : List ℚ) (c : ℤ) (h1 : 1 ≤ c) (h2 : c ≤ (l.length : ℤ)) :
    ∃ hb : l.length - c.toNat < l.length,
      pyIndex l (-c) = .ok (l.get ⟨l.length - c.toNat, hb⟩) := by
  have hb : l.length - c.toNat < l.length := by omega
  refine ⟨hb, ?_⟩
  simp only [pyIndex]
  split
  · split
    · have hn : (-c + (l.length : ℤ)).toNat = l.length - c.toNat := by omega
      simp [hn]
    · omega
  · omega

theorem pyIndex_nonneg (l : List ℚ) (c : ℤ) (h1 : 0 ≤ c) (h2 : c < (l.length : ℤ)) :
    ∃ hb : c.toNat < l.length, pyIndex l c = .ok (l.get ⟨c.toNat, hb⟩) := by
  have hb : c.toNat < l.length := by omega
  refine ⟨hb, ?_⟩
  simp only [pyIndex]
  split
  · omega
  · split
    · rfl
    · omega

/-- Evaluation of `percentile_threshold` on its documented domain: the result
is `ok` of the sorted list's element at the mode-dependent index. -/
theorem percentile_threshold_ok_get (values : List ℚ) (p : ℚ) (highest : Bool)
    (hne : values ≠ []) (hp0 : 0 < p) (hp1 : p ≤ 1) :
    ∃ (i : ℕ) (h : i < (values.insertionSort (· ≤ ·)).length),
      percentile_threshold values p highest
        = .ok (some ((values.insertionSort (· ≤ ·)).get ⟨i, h⟩)) ∧
      (highest = true → i = values.length - (max 1 (pyRound (values.length * p))).toNat) ∧
      (highest = false → i = (max 1 (pyRound (values.length * p))).toNat - 1) := by
  have hc1 : 1 ≤ max 1 (pyRound (values.length * p)) := le_max_left _ _
  have hc2 : max 1 (pyRound (values.length * p)) ≤ values.length :=
    count_le_length values p hne hp1
  have hlen : (values.insertionSort (· ≤ ·)).length = values.length :=
    List.length_insertionSort _ _
  unfold percentile_threshold
  rw [if_neg hne, if_neg (not_le.mpr hp0)]
  cases highest with
  | true =>
    obtain ⟨hb, hpi⟩ := pyIndex_neg (values.insertionSort (· ≤ ·))
      (max 1 (pyRound (values.length * p))) hc1 (by rw [hlen]; exact hc2)
    refine ⟨_, hb, ?_, fun _ => ?_, by simp⟩
    · rw [if_pos rfl, hpi]
      rfl
    · rw [hlen]
  | false =>
    obtain ⟨hb, hpi⟩ := pyIndex_nonneg (values.insertionSort (· ≤ ·))
      (max 1 (pyRound (values.length * p)) - 1) (by omega) (by rw [hlen]; omega)
    refine ⟨_, hb, ?_, by simp, fun _ => ?_⟩
    · rw [if_neg (by simp), hpi]
      rfl
    · omega

/-- In a `≤`-sorted list, every element from position `k` on is at least the
element at position `k`, so at least `length - k` elements pass the
`threshold ≤ ·` test. -/
theorem countP_ge_of_sorted (l : List ℚ) (hs : l.Sorted (· ≤ ·)) (k : ℕ) (hk : k < l.length) :
    l.length - k ≤ l.countP fun v => decide (l.get ⟨k, hk⟩ ≤ v) := by
  have hall : ∀ x ∈ l.drop k, (fun v => decide (l.get ⟨k, hk⟩ ≤ v)) x = true := by
    intro x hx
    obtain ⟨j, hj, hxj⟩ := List.mem_iff_getElem.mp hx
    have hlend : (l.drop k).length = l.length - k := List.length_drop k l
    have hj2 : k + j < l.length := by omega
    have hcast : (l.drop k)[j] = l[k + j] := List.getElem_drop ..
    rw [hcast] at hxj
    subst hxj
    simp only [decide_eq_true_eq]
    have hget : l.get ⟨k, hk⟩ ≤ l.get ⟨k + j, hj2⟩ :=
      hs.rel_get_of_le (by simp [Fin.le_def])
    simpa [List.get_eq_getElem] using hget
  have hdrop : (l.drop k).countP (fun v => decide (l.get ⟨k, hk⟩ ≤ v)) = l.length - k := by
    rw [List.countP_eq_length.mpr hall, List.length_drop]
  calc l.length - k = (l.drop k).countP (fun v => decide (l.get ⟨k, hk⟩ ≤ v)) := hdrop.symm
    _ ≤ (l.take k).countP (fun v => decide (l.get ⟨k, hk⟩ ≤ v))
        + (l.drop k).countP (fun v => decide (l.get ⟨k, hk⟩ ≤ v)) := Nat.le_add_left _ _
    _ = l.countP fun v => decide (l.get ⟨k, hk⟩ ≤ v) := by
        rw [← List.countP_append, List.take_append_drop]

/-! ## C3 -/

/-- C3 (amended): in "highest" mode, *at least* `max(1, round(n×p))` values
of the input list are `≥` the returned threshold. The count is not exact in
general: duplicated values can push it above `max(1, round(n×p))` (see the
counterexample), so the original claim's exact equality fails. -/
theorem c3_at_least_count_above_threshold (values : List ℚ) (p : ℚ)
    (hne : values ≠ []) (hp0 : 0 < p) (hp1 : p ≤ 1) :
    ∃ thr, percentile_threshold values p true = .ok (some thr) ∧
      (max 1 (pyRound (values.length * p))).toNat ≤
        values.countP fun v => decide (thr ≤ v) := by
  obtain ⟨i, hb, heq, hhi, -⟩ := percentile_threshold_ok_get values p true hne hp0 hp1
  have hi := hhi rfl
  have hperm : List.Perm (values.insertionSort (· ≤ ·)) values := List.perm_insertionSort _ _
  have hlen : (values.insertionSort (· ≤ ·)).length = values.length := hperm.length_eq
  have hsorted : (values.insertionSort (· ≤ ·)).Sorted (· ≤ ·) :=
    List.sorted_insertionSort _ _
  refine ⟨(values.insertionSort (· ≤ ·)).get ⟨i, hb⟩, heq, ?_⟩
  have hcount := countP_ge_of_sorted (values.insertionSort (· ≤ ·)) hsorted i hb
  rw [← hperm.countP_eq]
  have hcle := count_le_length values p hne hp1
  have hc1 : 1 ≤ max 1 (pyRound (values.length * p)) := le_max_left _ _
  omega

/-- C3 counterexample: for `values = [1, 1]` and `p = 1/2`, the count is
`max(1, round(2 × 1/2)) = 1` and the returned threshold is `1`, but *two*
values are `≥ 1` — the number of values above the threshold is not exactly
the count. -/
theorem c3_counterexample :
    percentile_threshold [1, 1] (1/2) true = .ok (some 1) ∧
    (max 1 (pyRound ((([1, 1] : List ℚ).length : ℚ) * (1/2)))).toNat = 1 ∧
    (([1, 1] : List ℚ).countP fun v => decide ((1 : ℚ) ≤ v)) = 2 ∧
    (2 : ℕ) ≠ 1 := by
  refine ⟨?_, ?_, by decide, by decide⟩
  · simp [percentile_threshold, pyRound, pyIndex, List.insertionSort,
      List.orderedInsert, Except.map]
  · norm_num [pyRound]

/-- C3 witness: the amended theorem applied at `values = [1, 2]`, `p = 1`. -/
theorem c3_witness :
    ([1, 2] : List ℚ) ≠ [] ∧ (0 : ℚ) < 1 ∧ (1 : ℚ) ≤ 1 ∧
    ∃ thr, percentile_threshold [1, 2] 1 true = .ok (some thr) ∧
      (max 1 (pyRound ((([1, 2] : List ℚ).length : ℚ) * 1))).toNat ≤
        ([1, 2] : List ℚ).countP fun v => decide (thr ≤ v) :=
  ⟨by decide, by decide, by decide,
    c3_at_least_count_above_threshold [1, 2] 1 (by decide) (by decide) (by decide)⟩

/-! ## C10 -/

/-- C10: on the documented domain (non-empty values, `0 < p ≤ 1`) the
selection count `max(1, round(n×p))` lies in `[1, n]`, both mode indices are
in bounds — `percentile_threshold` returns `ok` — and the returned threshold
is an element of the input list. -/
theorem c10_percentile_index_safe (values : List ℚ) (p : ℚ) (highest : Bool)
    (hne : values ≠ []) (hp0 : 0 < p) (hp1 : p ≤ 1) :
    1 ≤ max 1 (pyRound (values.length * p)) ∧
    max 1 (pyRound (values.length * p)) ≤ values.length ∧
    ∃ v, percentile_threshold values p highest = .ok (some v) ∧ v ∈ values := by
  refine ⟨le_max_left _ _, count_le_length values p hne hp1, ?_⟩
  obtain ⟨i, hb, heq, -, -⟩ := percentile_threshold_ok_get values p highest hne hp0 hp1
  refine ⟨_, heq, ?_⟩
  exact (List.perm_insertionSort _ _).subset (List.get_mem _ _ hb)

/-- C10 witness: the theorem applied at `values = [3, 1, 2]`, `p = 1`,
lowest mode. -/
theorem c10_witness :
    ([3, 1, 2] : List ℚ) ≠ [] ∧ (0 : ℚ) < 1 ∧ (1 : ℚ) ≤ 1 ∧
    (1 ≤ max 1 (pyRound ((([3, 1, 2] : List ℚ).length : ℚ) * 1)) ∧
      max 1 (pyRound ((([3, 1, 2] : List ℚ).length : ℚ) * 1)) ≤ ([3, 1, 2] : List ℚ).length ∧
      ∃ v, percentile_threshold [3, 1, 2] 1 false = .ok (some v) ∧ v ∈ ([3, 1, 2] : List ℚ)) :=
  ⟨by decide, by decide, by decide,
    c10_percentile_index_safe [3, 1, 2] 1 false (by decide) (by decide) (by decide)⟩

/-! ## C7 -/

/-- C7 (amended): on the documented domain — `percentile` restricted to
`(0, 1]` — the statistics functions raise no exception: the embedded
`percentile_threshold` (whose Python body contains the only fallible
operation, a list indexing) always returns `ok`, and `find_current_slot`
returns a slot only when both its timestamps parse and bracket `now` —
slots with missing or unparseable timestamps are skipped, never raised on.
Outside the documented domain the original blanket claim fails: a
percentile above 1 raises IndexError (see the counterexample). Timestamp
parsing (`dt_util.parse_datetime`, an external collaborator) is modelled as
total, per the spec. -/
theorem c7_no_raise_on_documented_domain :
    (∀ (values : List ℚ) (p : ℚ) (highest : Bool), 0 < p → p ≤ 1 →
      ∃ r, percentile_threshold values p highest = .ok r) ∧
    (∀ (slots : List PSlot) (now : ℤ) (s : PSlot),
      find_current_slot slots now = some s →
      ∃ t u, parseTS s.start_timestamp = some t ∧ parseTS s.end_timestamp = some u ∧
        t ≤ now ∧ now ≤ u) := by
  constructor
  · intro values p highest hp0 hp1
    by_cases hne : values = []
    · exact ⟨none, by simp [percentile_threshold, hne]⟩
    · obtain ⟨i, hb, heq, -, -⟩ := percentile_threshold_ok_get values p highest hne hp0 hp1
      exact ⟨_, heq⟩
  · intro slots now s h
    unfold find_current_slot at h
    have hp := List.find?_some h
    rcases hs : parseTS s.start_timestamp with _ | t
    · rw [hs] at hp
      simp at hp
    · rcases he : parseTS s.end_timestamp with _ | u
      · rw [hs, he] at hp
        simp at hp
      · rw [hs, he] at hp
        simp only [Bool.and_eq_true, decide_eq_true_eq] at hp
        exact ⟨t, u, rfl, rfl, hp.1, hp.2⟩

/-- C7 counterexample: a percentile above 1 (outside the documented domain)
makes the Python indexing `values_sorted[-count]` fail — the embedded
function returns the IndexError outcome instead of a value, refuting the
original "never raises for every input" claim. -/
theorem c7_counterexample :
    percentile_threshold [1] 2 true = .error "IndexError" := by
  simp [percentile_threshold, pyRound, pyIndex, List.insertionSort,
    List.orderedInsert, Except.map]

/-- The concrete canonical slot used by the C7 witness. -/
def c7Slot : PSlot :=
  { start_timestamp := some (RawVal.isoStr 0),
    end_timestamp := some (RawVal.isoStr 100),
    value := none, fields := [], unit := none, component := none }

/-- C7 witness: the amended theorem applied at `p = 1` and at a concrete
current-slot lookup. -/
theorem c7_witness :
    (∃ r, percentile_threshold [2] 1 true = .ok r) ∧
    (∃ t u, parseTS c7Slot.start_timestamp = some t ∧
      parseTS c7Slot.end_timestamp = some u ∧ t ≤ 50 ∧ (50 : ℤ) ≤ u) :=
  ⟨c7_no_raise_on_documented_domain.1 [2] 1 true (by decide) (by decide),
    c7_no_raise_on_documented_domain.2 [c7Slot] 50 c7Slot (by decide)⟩

end Swisspower
